import Mathlib

/-!
Verification of the statistics aggregation module of a habit-tracking app
(src/services/stats-service.ts, src/services/focus-service.ts, and the chart
default-template logic of src/pages/Settings.tsx).

Modelling conventions (shallow embedding):
* Calendar dates (the completed_date column, a date string in the source) are
  integers counting days; "today" is an explicit integer parameter, so the
  source expression today - i becomes integer subtraction.
* Timestamps (completed_at) are modelled by a record carrying an absolute time
  (for the gte comparison in queries) together with the calendar components
  the source reads off a JS Date: getHours, getDay, getDate, getMonth.
* Database tables are lists of rows; a supabase query chain
  .eq(..).gte(..) is List.filter with the conjunction of the conditions.
* A JS Map is an association list: Map.set updates an existing key in place
  (keeping its position) and appends a fresh key at the end; Map.get is the
  first (only) binding; Array.from(map.entries()) is the list itself.
  This matches the JS Map insertion-order iteration contract.
-/

namespace HabitMaster

/-- A row of the habit_logs table, restricted to the columns the statistics
code reads: the owner id and the completion date (as a day number). -/
structure HabitLog where
  user_id : String
  completed_date : Int
deriving DecidableEq

/-- A row of the tasks table, restricted to the owner id (getMonthlyStats
only counts rows). -/
structure TaskRow where
  user_id : String
deriving DecidableEq

/-- JS Map.set on an association list: if the key is present, replace its
value in place; otherwise append the new binding at the end. -/
def mapSet {α β : Type} [DecidableEq α] : List (α × β) → α → β → List (α × β)
  | [], k, v => [(k, v)]
  | p :: rest, k, v => if p.1 = k then (k, v) :: rest else p :: mapSet rest k v

/-- JS Map.get on an association list: the value at the first matching key. -/
def mapGet? {α β : Type} [DecidableEq α] : List (α × β) → α → Option β
  | [], _ => none
  | p :: rest, k => if p.1 = k then some p.2 else mapGet? rest k

/-- The per-date completion counter of getHabitHeatmap: fold Map.set over the
fetched rows, incrementing (countMap.get(d) ?? 0) + 1. -/
def heatmapCountMap (rows : List HabitLog) : List (Int × Nat) :=
  rows.foldl
    (fun m l => mapSet m l.completed_date ((mapGet? m l.completed_date).getD 0 + 1)) []

/-- The count-to-level step of getHabitHeatmap, written as the source writes
it: level starts at 0 and each threshold check overwrites it. -/
def levelOf (count : Nat) : Nat :=
  let level := 0
  let level := if count ≥ 1 then 1 else level
  let level := if count ≥ 3 then 2 else level
  let level := if count ≥ 5 then 3 else level
  level

/-- One heatmap cell: date, completion count, color level. -/
structure HeatmapCell where
  date : Int
  count : Nat
  level : Nat
deriving DecidableEq

/-- getHabitHeatmap: fetch the rows of userId dated at or after
today - days, count completions per date, then emit one cell per day of the
window, for i = days down to 0 (oldest first). -/
def getHabitHeatmap (db : List HabitLog) (userId : String) (days : Nat)
    (today : Int) : List HeatmapCell :=
  let startDate := today - days
  let rows := db.filter fun l =>
    decide (l.user_id = userId ∧ startDate ≤ l.completed_date)
  let countMap := heatmapCountMap rows
  (List.range (days + 1)).map fun j =>
    let i := days - j
    let dateV := today - i
    let count := (mapGet? countMap dateV).getD 0
    { date := dateV, count := count, level := levelOf count }

/-- The descending sort used on the deduplicated dates in getStreakData
(the JS comparator (a, b) => time(b) - time(a)). On a duplicate-free list
the result of any comparison sort is the unique strictly descending
enumeration, so insertion sort is an exact model. -/
def sortDesc (l : List Int) : List Int :=
  l.insertionSort fun a b => b ≤ a

/-- The current-streak walk of getStreakData: starting below an already
counted date prev, count how many further consecutive entries follow
(each exactly one day below the previous), stopping at the first gap. -/
def currentRun : Int → List Int → Nat
  | _, [] => 0
  | prev, curr :: rest =>
    if prev - curr = 1 then 1 + currentRun curr rest else 0

/-- The max-streak loop of getStreakData: walk the adjacent pairs keeping a
running streak tempS (reset to 1 at a gap) and the maximum maxS recorded so
far; exactly as in the source, maxS is updated only when a pair is
consecutive. -/
def maxRunLoop : Int → Nat → Nat → List Int → Nat
  | _, _, maxS, [] => maxS
  | prev, tempS, maxS, curr :: rest =>
    if prev - curr = 1 then
      maxRunLoop curr (tempS + 1) (max maxS (tempS + 1)) rest
    else
      maxRunLoop curr 1 maxS rest

/-- The body of getStreakData after the query: given the deduplicated,
descending-sorted date list, compute (currentStreak, maxStreak). -/
def streakFromDates (uniqueDates : List Int) (today : Int) : Nat × Nat :=
  match uniqueDates with
  | [] => (0, 0)
  | d0 :: rest =>
    let yesterday := today - 1
    let currentStreak :=
      if d0 = today ∨ d0 = yesterday then 1 + currentRun d0 rest else 0
    let maxStreak := maxRunLoop d0 1 0 rest
    (currentStreak, max maxStreak currentStreak)

/-- getStreakData: fetch the rows of userId, return (0,0) on an empty
result, otherwise deduplicate the dates, sort them descending and run the
two streak loops. -/
def getStreakData (db : List HabitLog) (userId : String) (today : Int) :
    Nat × Nat :=
  let data := db.filter fun l => decide (l.user_id = userId)
  if data.isEmpty then (0, 0)
  else streakFromDates (sortDesc (data.map (fun l => l.completed_date)).dedup) today

/-- getMonthlyStats: completed = number of the log rows of the owner dated at or
after the first of the month; total = (number of the task rows of the owner) *
daysElapsed where daysElapsed is now.getDate(); rate = Math.round of
completed / total * 100 when total is positive, else 0. Math.round(x) for a
nonnegative rational x is the floor of x + 1/2, which for x = 100 * c / t is
the natural-number division (200 * c + t) / (2 * t). The parameters
monthStart and daysElapsed stand for the values the source derives from the
ambient clock. Returns (completed, total, rate). -/
def getMonthlyStats (logs : List HabitLog) (tasks : List TaskRow)
    (userId : String) (monthStart : Int) (daysElapsed : Nat) :
    Nat × Nat × Nat :=
  let completed := (logs.filter fun l =>
    decide (l.user_id = userId ∧ monthStart ≤ l.completed_date)).length
  let taskCount := (tasks.filter fun t => decide (t.user_id = userId)).length
  let total := taskCount * daysElapsed
  let rate := if 0 < total then (200 * completed + total) / (2 * total) else 0
  (completed, total, rate)

/-- The mode column of focus_sessions: work or rest (the source spells the
second value break, a reserved word here). -/
inductive Mode where
  | work
  | brk
deriving DecidableEq

/-- A timestamp as the statistics code observes it: an absolute time used by
the gte filter, plus the calendar components read off the JS Date. -/
structure DateTime where
  time : Int
  getHours : Nat
  getDay : Nat
  getDate : Nat
  getMonth : Nat
deriving DecidableEq

/-- A row of the focus_sessions table, restricted to the columns the
statistics code reads. -/
structure FocusSession where
  user_id : String
  duration_minutes : Nat
  mode : Mode
  completed_at : DateTime
deriving DecidableEq

/-- getTodayFocusStats: fetch the work-mode sessions of the owner completed at or
after local midnight (todayStart), return (count, sum of durations). -/
def getTodayFocusStats (db : List FocusSession) (userId : String)
    (todayStart : Int) : Nat × Nat :=
  let sessions := db.filter fun s =>
    decide (s.user_id = userId ∧ s.mode = Mode.work ∧
      todayStart ≤ s.completed_at.time)
  (sessions.length, sessions.foldl (fun sum s => sum + s.duration_minutes) 0)

/-- The chart period selector (日 / 周 / 月 / 年 in the source). -/
inductive Period where
  | day
  | week
  | month
  | year
deriving DecidableEq

/-- Two-digit decimal rendering, as toString().padStart(2, "0") produces for
hours 0..23. -/
def pad2 (n : Nat) : String :=
  if n < 10 then "0" ++ toString n else toString n

/-- The weekday-name array of the source, indexed by getDay() (0 = Sunday). -/
def weekdayNames : List String :=
  ["周日", "周一", "周二", "周三", "周四", "周五", "周六"]

/-- The quarter-name array of the source. -/
def quarterNames : List String :=
  ["Q1", "Q2", "Q3", "Q4"]

/-- The bucket key getFocusChartData computes for a session timestamp under
each period: hour of day as HH:00, weekday name, ceil(dayOfMonth / 7) weeks,
or quarter. Math.ceil(n / 7) on a natural n is (n + 6) / 7. -/
def bucketKey (period : Period) (d : DateTime) : String :=
  match period with
  | Period.day => pad2 d.getHours ++ ":00"
  | Period.week => weekdayNames.getD d.getDay ""
  | Period.month => toString ((d.getDate + 6) / 7) ++ "周"
  | Period.year => quarterNames.getD (d.getMonth / 3) ""

/-- The aggregation fold of getFocusChartData: for each session, add its
duration onto its bucket in a JS Map. -/
def chartAggregate (period : Period) (sessions : List FocusSession) :
    List (String × Nat) :=
  sessions.foldl
    (fun m s =>
      mapSet m (bucketKey period s.completed_at)
        ((mapGet? m (bucketKey period s.completed_at)).getD 0 +
          s.duration_minutes))
    []

/-- getFocusChartData: fetch the work-mode sessions of the owner completed at or
after the lower bound of the period, aggregate durations per bucket key, and
return Array.from(map.entries()) — the association list in Map insertion
order. The parameter startTime stands for the lower bound the source
derives from the ambient clock for the chosen period. -/
def getFocusChartData (db : List FocusSession) (userId : String)
    (period : Period) (startTime : Int) : List (String × Nat) :=
  let sessions := db.filter fun s =>
    decide (s.user_id = userId ∧ s.mode = Mode.work ∧
      startTime ≤ s.completed_at.time)
  chartAggregate period sessions

/-- getDefaultChartData of the Statistics page: the fixed zero template
substituted when the chart query returns no points. -/
def getDefaultChartData (period : Period) : List (String × Nat) :=
  match period with
  | Period.day =>
    [("00:00", 0), ("06:00", 0), ("12:00", 0), ("18:00", 0), ("23:59", 0)]
  | Period.week =>
    (["周一", "周二", "周三", "周四", "周五", "周六", "周日"]).map fun n => (n, 0)
  | Period.month =>
    (["1周", "2周", "3周", "4周"]).map fun n => (n, 0)
  | Period.year =>
    quarterNames.map fun n => (n, 0)

/-- The substitution the Statistics page applies to a fetched chart:
data.length > 0 ? data : getDefaultChartData(period). -/
def displayChartData (period : Period) (chart : List (String × Nat)) :
    List (String × Nat) :=
  if 0 < chart.length then chart else getDefaultChartData period

/-! ### Association-list map lemmas -/

theorem mapGet?_mapSet_self {α β : Type} [DecidableEq α]
    (m : List (α × β)) (k : α) (v : β) :
    mapGet? (mapSet m k v) k = some v := by
  induction m with
  | nil => simp [mapSet, mapGet?]
  | cons p rest ih =>
    by_cases h : p.1 = k
    · simp [mapSet, mapGet?, h]
    · simp [mapSet, mapGet?, h, ih]

theorem mapGet?_mapSet_ne {α β : Type} [DecidableEq α]
    (m : List (α × β)) (k : α) (v : β) (k' : α) (h : k' ≠ k) :
    mapGet? (mapSet m k v) k' = mapGet? m k' := by
  induction m with
  | nil =>
    simp only [mapSet, mapGet?]
    rw [if_neg (Ne.symm h)]
  | cons p rest ih =>
    by_cases hp : p.1 = k
    · simp only [mapSet, if_pos hp, mapGet?]
      rw [if_neg (Ne.symm h), if_neg (by rw [hp]; exact Ne.symm h)]
    · simp only [mapSet, if_neg hp, mapGet?]
      by_cases hp' : p.1 = k'
      · rw [if_pos hp', if_pos hp']
      · rw [if_neg hp', if_neg hp', ih]

theorem map_fst_mapSet {α β : Type} [DecidableEq α]
    (m : List (α × β)) (k : α) (v : β) :
    (mapSet m k v).map Prod.fst =
      if k ∈ m.map Prod.fst then m.map Prod.fst else m.map Prod.fst ++ [k] := by
  induction m with
  | nil => simp [mapSet]
  | cons p rest ih =>
    by_cases h : p.1 = k
    · simp [mapSet, h]
    · have hne : ¬ k = p.1 := fun hk => h hk.symm
      by_cases hm : k ∈ rest.map Prod.fst
      · simp [mapSet, h, ih, hm, hne]
      · simp [mapSet, h, ih, hm, hne]

/-! ### Heatmap lemmas -/

theorem heatmapCountMap_fold_get (rows : List HabitLog)
    (m : List (Int × Nat)) (d : Int) :
    (mapGet? (rows.foldl
      (fun m l => mapSet m l.completed_date
        ((mapGet? m l.completed_date).getD 0 + 1)) m) d).getD 0 =
      (mapGet? m d).getD 0 +
        (rows.filter fun l => decide (l.completed_date = d)).length := by
  induction rows generalizing m with
  | nil => simp
  | cons l rows ih =>
    simp only [List.foldl_cons, ih, List.filter_cons]
    by_cases h : l.completed_date = d
    · subst h
      rw [mapGet?_mapSet_self, if_pos (by simp)]
      simp only [Option.getD_some, List.length_cons]
      omega
    · rw [mapGet?_mapSet_ne _ _ _ _ (Ne.symm h), if_neg (by simp [h])]

theorem heatmapCountMap_get (rows : List HabitLog) (d : Int) :
    (mapGet? (heatmapCountMap rows) d).getD 0 =
      (rows.filter fun l => decide (l.completed_date = d)).length := by
  have := heatmapCountMap_fold_get rows [] d
  simpa [heatmapCountMap, mapGet?] using this

theorem filter_window_at (db : List HabitLog) (userId : String)
    (start d : Int) (hd : start ≤ d) :
    ((db.filter fun l =>
        decide (l.user_id = userId ∧ start ≤ l.completed_date)).filter
      fun l => decide (l.completed_date = d)) =
      db.filter fun l => decide (l.user_id = userId ∧ l.completed_date = d) := by
  rw [List.filter_filter]
  apply List.filter_congr
  intro l _
  simp only [← Bool.decide_and, decide_eq_decide]
  constructor
  · rintro ⟨h1, h2, _⟩
    exact ⟨h2, h1⟩
  · rintro ⟨h1, h2⟩
    exact ⟨h2, h1, by omega⟩

/-- C5: for every window size days and database, getHabitHeatmap returns
exactly days + 1 cells; the cell at index j covers the calendar day
today - days + j (so the cells are one per day of the trailing window, in
oldest-first order), its count is the number of log rows of the owner on
that day (hence 0 for a day with no logged completion), and its level is
the step function of that count. -/
theorem getHabitHeatmap_window_shape (db : List HabitLog) (userId : String)
    (days : Nat) (today : Int) :
    (getHabitHeatmap db userId days today).length = days + 1 ∧
    ∀ j : Nat, j < days + 1 →
      (getHabitHeatmap db userId days today)[j]? =
        some { date := today - days + j,
               count := (db.filter fun l =>
                 decide (l.user_id = userId ∧
                   l.completed_date = today - days + j)).length,
               level := levelOf ((db.filter fun l =>
                 decide (l.user_id = userId ∧
                   l.completed_date = today - days + j)).length) } := by
  constructor
  · simp [getHabitHeatmap]
  · intro j hj
    have hdj : (today : Int) - (days - j : Nat) = today - days + j := by omega
    have hwin : (today : Int) - days ≤ today - days + j := by omega
    simp only [getHabitHeatmap, List.getElem?_map, List.getElem?_range hj,
      Option.map_some', Option.some.injEq]
    rw [hdj, heatmapCountMap_get, filter_window_at db userId _ _ hwin]

/-- Witness for C5 at a concrete input: one log row for user u dated day 10,
window 2 days, today = 10; the oldest cell (index 0) covers day 8 with no
completions. -/
theorem getHabitHeatmap_window_shape_witness :
    (getHabitHeatmap [{ user_id := "u", completed_date := 10 }] "u" 2 10)[0]? =
      some { date := 8, count := 0, level := 0 } := by
  have h := (getHabitHeatmap_window_shape
    [{ user_id := "u", completed_date := 10 }] "u" 2 10).2 0 (by decide)
  rw [h]
  decide

theorem levelOf_eq (n : Nat) :
    levelOf n = if n = 0 then 0 else if n < 3 then 1 else if n < 5 then 2 else 3 := by
  simp only [levelOf]
  split_ifs <;> omega

/-- C4: every cell of getHabitHeatmap carries the fixed step level of its
count (0 for count 0, 1 for 1 and 2, 2 for 3 and 4, 3 from 5 up), and the
level is monotone in the count across any two cells. -/
theorem getHabitHeatmap_level_step (db : List HabitLog) (userId : String)
    (days : Nat) (today : Int) (c : HeatmapCell)
    (hc : c ∈ getHabitHeatmap db userId days today) :
    (c.level = if c.count = 0 then 0 else if c.count < 3 then 1
      else if c.count < 5 then 2 else 3) ∧
    ∀ c' ∈ getHabitHeatmap db userId days today,
      c.count ≤ c'.count → c.level ≤ c'.level := by
  have hlevel : ∀ x ∈ getHabitHeatmap db userId days today,
      x.level = levelOf x.count := by
    intro x hx
    simp only [getHabitHeatmap, List.mem_map] at hx
    obtain ⟨a, _, rfl⟩ := hx
    rfl
  constructor
  · rw [hlevel c hc, levelOf_eq]
  · intro c' hc' hle
    rw [hlevel c hc, hlevel c' hc', levelOf_eq, levelOf_eq]
    split_ifs <;> omega

/-- Witness for C4 at a concrete input: the single cell of a 0-day window
with one completion today has count 1 and level 1. -/
theorem getHabitHeatmap_level_step_witness :
    ({ date := 10, count := 1, level := 1 } : HeatmapCell).level =
      if (({ date := 10, count := 1, level := 1 } : HeatmapCell).count = 0) then 0
      else if ({ date := 10, count := 1, level := 1 } : HeatmapCell).count < 3 then 1
      else if ({ date := 10, count := 1, level := 1 } : HeatmapCell).count < 5 then 2
      else 3 :=
  (getHabitHeatmap_level_step [{ user_id := "u", completed_date := 10 }] "u" 0 10
    { date := 10, count := 1, level := 1 } (by decide)).1

/-! ### Streak lemmas -/

instance : IsTotal Int fun a b => b ≤ a :=
  ⟨fun a b => le_total b a⟩

instance : IsTrans Int fun a b => b ≤ a :=
  ⟨fun _ _ _ h1 h2 => le_trans h2 h1⟩

theorem sortDesc_mem (l : List Int) (a : Int) : a ∈ sortDesc l ↔ a ∈ l :=
  (List.perm_insertionSort _ l).mem_iff

theorem sortDesc_strict (l : List Int) (h : l.Nodup) :
    (sortDesc l).Pairwise fun a b => b < a := by
  have h1 : (sortDesc l).Pairwise fun a b => b ≤ a :=
    List.sorted_insertionSort _ l
  have h2 : (sortDesc l).Pairwise fun a b => a ≠ b :=
    ((List.perm_insertionSort _ l).nodup_iff).2 h
  exact (h1.and h2).imp fun hab => lt_of_le_of_ne hab.1 (Ne.symm hab.2)

/-- The deduplicated, descending-sorted completion-date list getStreakData
derives for one owner. -/
def streakDates (db : List HabitLog) (userId : String) : List Int :=
  sortDesc ((db.filter fun l => decide (l.user_id = userId)).map
    (fun l => l.completed_date)).dedup

theorem getStreakData_unfold (db : List HabitLog) (userId : String)
    (today : Int)
    (h : db.filter (fun l => decide (l.user_id = userId)) ≠ []) :
    getStreakData db userId today =
      streakFromDates (streakDates db userId) today := by
  simp only [getStreakData, streakDates]
  rw [if_neg (by simpa [List.isEmpty_iff] using h)]

theorem mem_streakDates (db : List HabitLog) (userId : String) (a : Int) :
    a ∈ streakDates db userId ↔
      ∃ l ∈ db, l.user_id = userId ∧ l.completed_date = a := by
  rw [streakDates, sortDesc_mem, List.mem_dedup, List.mem_map]
  constructor
  · rintro ⟨l, hl, rfl⟩
    rw [List.mem_filter] at hl
    exact ⟨l, hl.1, by simpa using hl.2, rfl⟩
  · rintro ⟨l, hl, hu, ha⟩
    exact ⟨l, List.mem_filter.2 ⟨hl, by simpa using hu⟩, ha⟩

theorem streakDates_strict (db : List HabitLog) (userId : String) :
    (streakDates db userId).Pairwise fun a b => b < a :=
  sortDesc_strict _ (List.nodup_dedup _)

theorem dedup_all_eq {α : Type} [DecidableEq α] {l : List α} {d : α}
    (hne : l ≠ []) (hall : ∀ x ∈ l, x = d) : l.dedup = [d] := by
  induction l with
  | nil => exact absurd rfl hne
  | cons x t ih =>
    have hx : x = d := hall x (by simp)
    cases t with
    | nil => simp [hx]
    | cons y t' =>
      have hmem : x ∈ y :: t' := by
        have hy : y = d := hall y (by simp)
        simp [hx, hy]
      rw [List.dedup_cons_of_mem hmem]
      exact ih (by simp) fun z hz => hall z (by simp [hz])

/-- The current-streak walk on a strictly descending list: if the list headed
by p contains exactly the days p, p-1, ..., p-(m-1) as an initial run (the
day p-m is absent), the walk counts m. -/
theorem currentRun_spec (rest : List Int) (p : Int) (m : Nat)
    (hm : 0 < m)
    (hpair : (p :: rest).Pairwise fun a b => b < a)
    (hrun : ∀ j : Nat, j < m → p - j ∈ p :: rest)
    (hgap : (p - m) ∉ p :: rest) :
    1 + currentRun p rest = m := by
  induction rest generalizing p m with
  | nil =>
    have hm2 : m < 2 := by
      by_contra hge
      have h1 := hrun 1 (by omega)
      simp only [List.mem_singleton] at h1
      omega
    have hm1 : m = 1 := by omega
    subst hm1
    simp [currentRun]
  | cons c rest ih =>
    rw [List.pairwise_cons] at hpair
    obtain ⟨hd, hpair'⟩ := hpair
    by_cases hm1 : m = 1
    · subst hm1
      have hpc : p - c ≠ 1 := by
        intro h
        apply hgap
        have hc : p - ((1 : Nat) : Int) = c := by omega
        rw [hc]
        exact List.mem_cons_of_mem _ (List.mem_cons_self _ _)
      simp [currentRun, hpc]
    · have hm2 : 2 ≤ m := by omega
      have h1 := hrun 1 (by omega)
      have h1' : (p - ((1 : Nat) : Int)) ∈ c :: rest := by
        rcases List.mem_cons.1 h1 with h | h
        · exfalso
          omega
        · exact h
      have hc : c = p - 1 := by
        rcases List.mem_cons.1 h1' with h | h
        · omega
        · exfalso
          have hlt := (List.pairwise_cons.1 hpair').1 _ h
          have hcp := hd c (List.mem_cons_self _ _)
          omega
      have hpc : p - c = 1 := by omega
      simp only [currentRun, if_pos hpc]
      have hrec := ih c (m - 1) (by omega) hpair'
        (by
          intro j hj
          have h2 := hrun (j + 1) (by omega)
          have heq : c - (j : Int) = p - ((j + 1 : Nat) : Int) := by push_cast; omega
          rw [heq]
          rcases List.mem_cons.1 h2 with h | h
          · exfalso
            push_cast at h
            omega
          · exact h)
        (by
          intro hmemb
          apply hgap
          have heq : c - ((m - 1 : Nat) : Int) = p - (m : Int) := by omega
          rw [heq] at hmemb
          exact List.mem_cons_of_mem _ hmemb)
      omega

/-- C1 counterexample: the log holding the single completion date 0,
evaluated with today = 10 (so the date is older than yesterday), is
nonempty yet getStreakData returns maxStreak 0, where the claim demands
maxStreak = 1. -/
theorem getStreakData_single_old_date_counterexample :
    ([{ user_id := "u", completed_date := 0 }] : List HabitLog) ≠ [] ∧
    (getStreakData [{ user_id := "u", completed_date := 0 }] "u" 10).2 = 0 := by
  constructor
  · decide
  · rfl

/-- C1 amended: a log whose completion dates for the owner all equal a
single date d yields currentStreak 1 when d is today or yesterday and 0
otherwise, and maxStreak equal to currentStreak (so maxStreak is 0, not 1,
when the single date is older than yesterday). -/
theorem getStreakData_single_date (db : List HabitLog) (userId : String)
    (today d : Int)
    (hne : ∃ l ∈ db, l.user_id = userId)
    (hall : ∀ l ∈ db, l.user_id = userId → l.completed_date = d) :
    getStreakData db userId today =
      if d = today ∨ d = today - 1 then (1, 1) else (0, 0) := by
  obtain ⟨l0, hl0, hu0⟩ := hne
  have hfil : db.filter (fun l => decide (l.user_id = userId)) ≠ [] := by
    intro hemp
    have hmem : l0 ∈ db.filter (fun l => decide (l.user_id = userId)) :=
      List.mem_filter.2 ⟨hl0, by simpa using hu0⟩
    rw [hemp] at hmem
    exact absurd hmem (List.not_mem_nil l0)
  rw [getStreakData_unfold db userId today hfil]
  have hdates : streakDates db userId = [d] := by
    rw [streakDates]
    have hded : ((db.filter fun l => decide (l.user_id = userId)).map
        (fun l => l.completed_date)).dedup = [d] := by
      apply dedup_all_eq
      · simp only [ne_eq, List.map_eq_nil_iff]
        exact hfil
      · intro x hx
        rw [List.mem_map] at hx
        obtain ⟨l, hl, rfl⟩ := hx
        rw [List.mem_filter] at hl
        exact hall l hl.1 (by simpa using hl.2)
    rw [hded]
    rfl
  rw [hdates]
  by_cases hd : d = today ∨ d = today - 1
  · simp [streakFromDates, hd, currentRun, maxRunLoop]
  · simp [streakFromDates, hd, maxRunLoop]

/-- Witness for C1 amended at a concrete input: a log whose single
completion date is today itself yields (1, 1). -/
theorem getStreakData_single_date_witness :
    getStreakData [{ user_id := "u", completed_date := 10 }] "u" 10 =
      if (10 : Int) = 10 ∨ (10 : Int) = 10 - 1 then (1, 1) else (0, 0) :=
  getStreakData_single_date [{ user_id := "u", completed_date := 10 }] "u" 10 10
    (by decide) (by decide)

/-- C2: evaluated at a fixed today over the completion dates of the owner
(all at or before today): if the dates contain the k consecutive days
ending today and not the day preceding that run, currentStreak = k; and if
every date of the owner is older than yesterday, currentStreak = 0. -/
theorem getStreakData_currentStreak (db : List HabitLog) (userId : String)
    (today : Int) :
    (∀ k : Nat, 0 < k →
      (∀ l ∈ db, l.user_id = userId → l.completed_date ≤ today) →
      (∀ j : Nat, j < k →
        ∃ l ∈ db, l.user_id = userId ∧ l.completed_date = today - j) →
      (¬ ∃ l ∈ db, l.user_id = userId ∧ l.completed_date = today - k) →
      (getStreakData db userId today).1 = k) ∧
    ((∀ l ∈ db, l.user_id = userId → l.completed_date < today - 1) →
      (getStreakData db userId today).1 = 0) := by
  constructor
  · intro k hk hle hrun hgap
    have hne : db.filter (fun l => decide (l.user_id = userId)) ≠ [] := by
      obtain ⟨l, hl, hu, _⟩ := hrun 0 hk
      intro hemp
      have hmem : l ∈ db.filter (fun l => decide (l.user_id = userId)) :=
        List.mem_filter.2 ⟨hl, by simpa using hu⟩
      rw [hemp] at hmem
      exact absurd hmem (List.not_mem_nil l)
    rw [getStreakData_unfold db userId today hne]
    have hmem := mem_streakDates db userId
    have hstrict := streakDates_strict db userId
    have htoday : today ∈ streakDates db userId := by
      rw [hmem]
      have h0 := hrun 0 hk
      simpa using h0
    obtain ⟨d0, rest, hUeq⟩ :
        ∃ d0 rest, streakDates db userId = d0 :: rest := by
      cases hU2 : streakDates db userId with
      | nil =>
        rw [hU2] at htoday
        exact absurd htoday (List.not_mem_nil _)
      | cons a b => exact ⟨a, b, rfl⟩
    rw [hUeq] at htoday hstrict hmem ⊢
    have hd0 : d0 = today := by
      have hd0le : d0 ≤ today := by
        obtain ⟨l, hl, hu, hc⟩ := (hmem d0).1 (List.mem_cons_self _ _)
        have := hle l hl hu
        omega
      rcases List.mem_cons.1 htoday with h | h
      · omega
      · have := (List.pairwise_cons.1 hstrict).1 _ h
        omega
    rw [hd0] at hstrict hmem ⊢
    simp only [streakFromDates]
    rw [if_pos (by left; trivial)]
    show 1 + currentRun today rest = k
    apply currentRun_spec rest today k hk hstrict
    · intro j hj
      exact (hmem _).2 (hrun j hj)
    · intro hmemb
      exact hgap ((hmem _).1 hmemb)
  · intro hold
    by_cases hemp : db.filter (fun l => decide (l.user_id = userId)) = []
    · simp only [getStreakData]
      rw [if_pos (by simpa [List.isEmpty_iff] using hemp)]
    · rw [getStreakData_unfold db userId today hemp]
      have hmem := mem_streakDates db userId
      cases hU2 : streakDates db userId with
      | nil => simp [streakFromDates]
      | cons d0 rest =>
        have hd0mem : d0 ∈ streakDates db userId := by
          rw [hU2]
          exact List.mem_cons_self _ _
        obtain ⟨l, hl, hu, hc⟩ := (hmem d0).1 hd0mem
        have hlt := hold l hl hu
        simp only [streakFromDates]
        rw [if_neg (by omega)]

/-- Witness for C2 at a concrete input: dates today = 10, 9 and 5 for user
u give a current streak of exactly 2. -/
theorem getStreakData_currentStreak_witness :
    (getStreakData [{ user_id := "u", completed_date := 10 },
      { user_id := "u", completed_date := 9 },
      { user_id := "u", completed_date := 5 }] "u" 10).1 = 2 :=
  (getStreakData_currentStreak _ "u" 10).1 2 (by decide) (by decide)
    (by decide) (by decide)

/-! ### Monthly stats -/

/-- On naturals, Math.round of c / t * 100 (exact rational arithmetic,
rounding half up) equals the natural division (200 c + t) / (2 t). -/
theorem jsRound_eq_round (c t : Nat) (ht : 0 < t) :
    (((200 * c + t) / (2 * t) : Nat) : ℤ) = round ((c : ℚ) / t * 100) := by
  have ht' : (t : ℚ) ≠ 0 := Nat.cast_ne_zero.2 (by omega)
  rw [round_eq]
  have harg : (c : ℚ) / t * 100 + 1 / 2 =
      (((200 * c + t : Nat) : ℤ) : ℚ) / ((2 * t : Nat) : ℚ) := by
    push_cast
    field_simp
    ring
  rw [harg, Rat.floor_intCast_div_natCast]
  push_cast
  ring

/-- C6: getMonthlyStats returns total = habitCount * daysElapsedInMonth;
whenever total is positive, rate is Math.round of completed / total * 100;
whenever total = 0 the rate is 0 with no division error; and the rate is
not clamped above 100: the concrete input with 20 completions, one task and
5 elapsed days has completed greater than total and returns rate 400. -/
theorem getMonthlyStats_spec (logs : List HabitLog) (tasks : List TaskRow)
    (userId : String) (monthStart : Int) (daysElapsed : Nat) :
    ((getMonthlyStats logs tasks userId monthStart daysElapsed).2.1 =
      (tasks.filter fun t => decide (t.user_id = userId)).length * daysElapsed) ∧
    (0 < (getMonthlyStats logs tasks userId monthStart daysElapsed).2.1 →
      (((getMonthlyStats logs tasks userId monthStart daysElapsed).2.2 : ℤ) =
        round (((getMonthlyStats logs tasks userId monthStart daysElapsed).1 : ℚ) /
          ((getMonthlyStats logs tasks userId monthStart daysElapsed).2.1 : ℚ) * 100))) ∧
    ((getMonthlyStats logs tasks userId monthStart daysElapsed).2.1 = 0 →
      (getMonthlyStats logs tasks userId monthStart daysElapsed).2.2 = 0) ∧
    ((getMonthlyStats (List.replicate 20 { user_id := "u", completed_date := 3 })
        [{ user_id := "u" }] "u" 0 5).2.1 <
      (getMonthlyStats (List.replicate 20 { user_id := "u", completed_date := 3 })
        [{ user_id := "u" }] "u" 0 5).1 ∧
      100 < (getMonthlyStats (List.replicate 20 { user_id := "u", completed_date := 3 })
        [{ user_id := "u" }] "u" 0 5).2.2) := by
  refine ⟨rfl, ?_, ?_, by decide⟩
  · intro h
    simp only [getMonthlyStats] at h ⊢
    rw [if_pos h]
    exact jsRound_eq_round _ _ h
  · intro h
    simp only [getMonthlyStats] at h ⊢
    rw [if_neg (by omega)]

/-- Witness for C6 at the concrete scenario of the specification:
10 completions, 2 tasks, 5 elapsed days, so total = 10 and rate =
round(10 / 10 * 100) = 100. -/
theorem getMonthlyStats_spec_witness :
    (((getMonthlyStats (List.replicate 10 { user_id := "u", completed_date := 3 })
        [{ user_id := "u" }, { user_id := "u" }] "u" 0 5).2.2 : ℤ) =
      round (((getMonthlyStats (List.replicate 10 { user_id := "u", completed_date := 3 })
        [{ user_id := "u" }, { user_id := "u" }] "u" 0 5).1 : ℚ) /
        ((getMonthlyStats (List.replicate 10 { user_id := "u", completed_date := 3 })
        [{ user_id := "u" }, { user_id := "u" }] "u" 0 5).2.1 : ℚ) * 100)) :=
  (getMonthlyStats_spec (List.replicate 10 { user_id := "u", completed_date := 3 })
    [{ user_id := "u" }, { user_id := "u" }] "u" 0 5).2.1 (by decide)

/-! ### Today focus stats -/

theorem foldl_add_durations (l : List FocusSession) (n : Nat) :
    l.foldl (fun sum s => sum + s.duration_minutes) n =
      n + (l.map (fun s => s.duration_minutes)).sum := by
  induction l generalizing n with
  | nil => simp
  | cons s l ih => simp [ih, Nat.add_assoc]

/-- C10: getTodayFocusStats counts exactly the sessions of the owner with
work mode completed at or after local midnight, and sums their durations;
prepending a break-mode session never changes the result, and when every
such session of the owner is in break mode the result is (0, 0). -/
theorem getTodayFocusStats_spec (db : List FocusSession) (userId : String)
    (todayStart : Int) :
    ((getTodayFocusStats db userId todayStart).1 =
      (db.filter fun s => decide (s.user_id = userId ∧ s.mode = Mode.work ∧
        todayStart ≤ s.completed_at.time)).length) ∧
    ((getTodayFocusStats db userId todayStart).2 =
      ((db.filter fun s => decide (s.user_id = userId ∧ s.mode = Mode.work ∧
        todayStart ≤ s.completed_at.time)).map
          (fun s => s.duration_minutes)).sum) ∧
    (∀ s : FocusSession, s.mode = Mode.brk →
      getTodayFocusStats (s :: db) userId todayStart =
        getTodayFocusStats db userId todayStart) ∧
    ((∀ s ∈ db, s.user_id = userId → todayStart ≤ s.completed_at.time →
        s.mode = Mode.brk) →
      getTodayFocusStats db userId todayStart = (0, 0)) := by
  refine ⟨rfl, ?_, ?_, ?_⟩
  · simp only [getTodayFocusStats]
    simpa using foldl_add_durations _ 0
  · intro s hs
    have hnot : ¬(s.user_id = userId ∧ s.mode = Mode.work ∧
        todayStart ≤ s.completed_at.time) := by
      rintro ⟨_, hw, _⟩
      rw [hs] at hw
      exact Mode.noConfusion hw
    simp [getTodayFocusStats, List.filter_cons, hnot]
  · intro h
    have hfil : (db.filter fun s => decide (s.user_id = userId ∧
        s.mode = Mode.work ∧ todayStart ≤ s.completed_at.time)) = [] := by
      rw [List.filter_eq_nil_iff]
      intro s hs
      simp only [decide_eq_true_eq, not_and]
      intro hu hw
      have := h s hs hu
      intro hts
      rw [this hts] at hw
      exact Mode.noConfusion hw
    simp only [getTodayFocusStats]
    rw [hfil]
    rfl

/-- The break-mode session used as concrete input below. -/
def exBreakSession : FocusSession :=
  { user_id := "u", duration_minutes := 5, mode := Mode.brk,
    completed_at := { time := 1, getHours := 9, getDay := 0, getDate := 1,
                      getMonth := 0 } }

/-- Witness for C10 at a concrete input: a database holding one break-mode
session of the owner today yields (0, 0). -/
theorem getTodayFocusStats_spec_witness :
    getTodayFocusStats [exBreakSession] "u" 0 = (0, 0) :=
  (getTodayFocusStats_spec _ "u" 0).2.2.2 (by decide)

/-! ### Chart aggregation lemmas -/

theorem mapGet?_eq_none_iff {α β : Type} [DecidableEq α]
    (m : List (α × β)) (k : α) :
    mapGet? m k = none ↔ k ∉ m.map Prod.fst := by
  induction m with
  | nil => simp [mapGet?]
  | cons p rest ih =>
    by_cases h : p.1 = k
    · simp [mapGet?, h]
    · rw [List.map_cons]
      simp only [mapGet?, if_neg h, ih, List.mem_cons]
      constructor
      · intro hk hor
        rcases hor with h1 | h1
        · exact h h1.symm
        · exact hk h1
      · intro hk h1
        exact hk (Or.inr h1)

theorem chartAggregate_fold_get (period : Period) (l : List FocusSession)
    (m : List (String × Nat)) (k : String) :
    (mapGet? (l.foldl (fun m s => mapSet m (bucketKey period s.completed_at)
        ((mapGet? m (bucketKey period s.completed_at)).getD 0 +
          s.duration_minutes)) m) k).getD 0 =
      (mapGet? m k).getD 0 +
        ((l.filter fun s => decide (bucketKey period s.completed_at = k)).map
          (fun s => s.duration_minutes)).sum := by
  induction l generalizing m with
  | nil => simp
  | cons s l ih =>
    simp only [List.foldl_cons, ih, List.filter_cons]
    by_cases h : bucketKey period s.completed_at = k
    · rw [h, mapGet?_mapSet_self, if_pos (by simp [h])]
      simp only [Option.getD_some, List.map_cons, List.sum_cons]
      omega
    · rw [mapGet?_mapSet_ne _ _ _ _ (Ne.symm h), if_neg (by simp [h])]

theorem chartAggregate_get (period : Period) (l : List FocusSession)
    (k : String) :
    (mapGet? (chartAggregate period l) k).getD 0 =
      ((l.filter fun s => decide (bucketKey period s.completed_at = k)).map
        (fun s => s.duration_minutes)).sum := by
  have h := chartAggregate_fold_get period l [] k
  simpa [chartAggregate, mapGet?] using h

/-- The caller-visible insertion policy of a JS Map key: an already present
key leaves the key sequence unchanged, a fresh key is appended. -/
def insertNewKey (acc : List String) (k : String) : List String :=
  if k ∈ acc then acc else acc ++ [k]

/-- The keys of a session list in order of first occurrence. -/
def firstOccurrenceKeys (l : List String) : List String :=
  l.foldl insertNewKey []

theorem mem_insertNewKey (acc : List String) (x k : String) :
    k ∈ insertNewKey acc x ↔ k ∈ acc ∨ k = x := by
  rw [insertNewKey]
  by_cases h : x ∈ acc
  · rw [if_pos h]
    constructor
    · exact Or.inl
    · rintro (h1 | rfl)
      · exact h1
      · exact h
  · rw [if_neg h]
    simp [List.mem_append]

theorem mem_foldl_insertNewKey (l : List String) (acc : List String)
    (k : String) :
    k ∈ l.foldl insertNewKey acc ↔ k ∈ acc ∨ k ∈ l := by
  induction l generalizing acc with
  | nil => simp
  | cons x l ih =>
    rw [List.foldl_cons, ih, mem_insertNewKey]
    simp [List.mem_cons, or_assoc]

theorem chartAggregate_fold_keys (period : Period) (l : List FocusSession)
    (m : List (String × Nat)) :
    (l.foldl (fun m s => mapSet m (bucketKey period s.completed_at)
        ((mapGet? m (bucketKey period s.completed_at)).getD 0 +
          s.duration_minutes)) m).map Prod.fst =
      (l.map fun s => bucketKey period s.completed_at).foldl insertNewKey
        (m.map Prod.fst) := by
  induction l generalizing m with
  | nil => simp
  | cons s l ih =>
    simp only [List.foldl_cons, List.map_cons, ih]
    congr 1
    rw [map_fst_mapSet]
    rfl

theorem chartAggregate_mem_keys (period : Period) (l : List FocusSession)
    (k : String) :
    k ∈ (chartAggregate period l).map Prod.fst ↔
      ∃ s ∈ l, bucketKey period s.completed_at = k := by
  rw [chartAggregate, chartAggregate_fold_keys]
  simp only [List.map_nil]
  rw [mem_foldl_insertNewKey]
  simp [List.mem_map]

/-- A 25-minute work session of user u completed in the given hour. -/
def exWorkSession (h : Nat) : FocusSession :=
  { user_id := "u", duration_minutes := 25, mode := Mode.work,
    completed_at := { time := 5, getHours := h, getDay := 0, getDate := 1,
                      getMonth := 0 } }

/-- C7: the value of each emitted bucket is the sum of the durations of the
work-mode sessions of the owner at or after the lower bound whose timestamp
maps to that bucket key, buckets with no matching session are absent from
the output map, and the four 25-minute work sessions at hours 9, 9, 14, 20
for period day yield exactly 09:00 -> 50, 14:00 -> 25, 20:00 -> 25. -/
theorem getFocusChartData_bucket_values (db : List FocusSession)
    (userId : String) (period : Period) (startTime : Int) (k : String) :
    (mapGet? (getFocusChartData db userId period startTime) k =
      (if ((db.filter fun s => decide (s.user_id = userId ∧
            s.mode = Mode.work ∧ startTime ≤ s.completed_at.time)).filter
          fun s => decide (bucketKey period s.completed_at = k)) = [] then
        none
      else
        some ((((db.filter fun s => decide (s.user_id = userId ∧
            s.mode = Mode.work ∧ startTime ≤ s.completed_at.time)).filter
          fun s => decide (bucketKey period s.completed_at = k)).map
            (fun s => s.duration_minutes)).sum))) ∧
    getFocusChartData [exWorkSession 9, exWorkSession 9, exWorkSession 14,
        exWorkSession 20] "u" Period.day 0 =
      [("09:00", 50), ("14:00", 25), ("20:00", 25)] := by
  constructor
  · simp only [getFocusChartData]
    by_cases hemp : ((db.filter fun s => decide (s.user_id = userId ∧
        s.mode = Mode.work ∧ startTime ≤ s.completed_at.time)).filter
      fun s => decide (bucketKey period s.completed_at = k)) = []
    · rw [if_pos hemp, mapGet?_eq_none_iff, chartAggregate_mem_keys]
      rintro ⟨s, hs, hb⟩
      have hmem : s ∈ ((db.filter fun s => decide (s.user_id = userId ∧
          s.mode = Mode.work ∧ startTime ≤ s.completed_at.time)).filter
        fun s => decide (bucketKey period s.completed_at = k)) :=
        List.mem_filter.2 ⟨hs, by simpa using hb⟩
      rw [hemp] at hmem
      exact absurd hmem (List.not_mem_nil s)
    · rw [if_neg hemp]
      obtain ⟨s, hs⟩ := List.exists_mem_of_ne_nil _ hemp
      rw [List.mem_filter] at hs
      obtain ⟨v, hv⟩ : ∃ v, mapGet? (chartAggregate period
          (db.filter fun s => decide (s.user_id = userId ∧
            s.mode = Mode.work ∧ startTime ≤ s.completed_at.time))) k =
          some v := by
        cases hmg : mapGet? (chartAggregate period
            (db.filter fun s => decide (s.user_id = userId ∧
              s.mode = Mode.work ∧ startTime ≤ s.completed_at.time))) k with
        | none =>
          rw [mapGet?_eq_none_iff, chartAggregate_mem_keys] at hmg
          exact absurd ⟨s, hs.1, by simpa using hs.2⟩ hmg
        | some v => exact ⟨v, rfl⟩
      rw [hv]
      have hval := chartAggregate_get period
        (db.filter fun s => decide (s.user_id = userId ∧
          s.mode = Mode.work ∧ startTime ≤ s.completed_at.time)) k
      rw [hv] at hval
      simpa using hval
  · decide

/-- C3 counterexample: for period day, a work session at hour 14 followed by
one at hour 9 produces the buckets in session order, 14:00 before 09:00,
not in the chronological label order that would put 09:00 first. -/
theorem getFocusChartData_not_label_ordered :
    getFocusChartData [exWorkSession 14, exWorkSession 9] "u" Period.day 0 =
      [("14:00", 25), ("09:00", 25)] ∧
    ([("14:00", 25), ("09:00", 25)] : List (String × Nat)) ≠
      [("09:00", 25), ("14:00", 25)] := by
  constructor
  · decide
  · decide

/-- C3 amended: the sequence returned by getFocusChartData lists its buckets
in order of first occurrence of each bucket key over the filtered sessions
in input order (JS Map insertion order), not in the canonical
chronological label order of the period. -/
theorem getFocusChartData_insertion_order (db : List FocusSession)
    (userId : String) (period : Period) (startTime : Int) :
    (getFocusChartData db userId period startTime).map Prod.fst =
      firstOccurrenceKeys ((db.filter fun s => decide (s.user_id = userId ∧
        s.mode = Mode.work ∧ startTime ≤ s.completed_at.time)).map
          fun s => bucketKey period s.completed_at) := by
  simp only [getFocusChartData, chartAggregate, firstOccurrenceKeys]
  rw [chartAggregate_fold_keys]
  rfl

/-! ### Default chart template (Statistics page) -/

/-- C8 counterexample: for period day the canonical hour bucket 01:00 (the
bucket key of any session completed in hour 1) has no point at all in the
substituted default template, which holds only the five fixed labels
00:00, 06:00, 12:00, 18:00, 23:59. -/
theorem defaultChart_day_missing_canonical_bucket :
    bucketKey Period.day { time := 0, getHours := 1, getDay := 0,
                           getDate := 1, getMonth := 0 } = "01:00" ∧
    (displayChartData Period.day []).map Prod.fst =
      ["00:00", "06:00", "12:00", "18:00", "23:59"] ∧
    "01:00" ∉ (displayChartData Period.day []).map Prod.fst := by
  refine ⟨by decide, by decide, by decide⟩

/-- C8 amended: when the chart query returns the empty sequence the page
substitutes a fixed zero-valued template; for week it holds one point per
weekday (Monday through Sunday) and for year one per quarter, covering every
producible bucket label of those periods; for day it holds only five fixed
labels (00:00, 06:00, 12:00, 18:00, 23:59) and for month only weeks 1 to 4,
so those two periods are not covered bucket-per-bucket. All values are 0. -/
theorem displayChartData_empty_template :
    (displayChartData Period.week [] =
      [("周一", 0), ("周二", 0), ("周三", 0), ("周四", 0), ("周五", 0),
        ("周六", 0), ("周日", 0)]) ∧
    (displayChartData Period.year [] =
      [("Q1", 0), ("Q2", 0), ("Q3", 0), ("Q4", 0)]) ∧
    (displayChartData Period.day [] =
      [("00:00", 0), ("06:00", 0), ("12:00", 0), ("18:00", 0),
        ("23:59", 0)]) ∧
    (displayChartData Period.month [] =
      [("1周", 0), ("2周", 0), ("3周", 0), ("4周", 0)]) ∧
    (∀ d : DateTime, d.getDay < 7 →
      bucketKey Period.week d ∈ (displayChartData Period.week []).map Prod.fst) ∧
    (∀ d : DateTime, d.getMonth < 12 →
      bucketKey Period.year d ∈ (displayChartData Period.year []).map Prod.fst) := by
  refine ⟨by decide, by decide, by decide, by decide, ?_, ?_⟩
  · intro d hd
    obtain ⟨t, hh, dy, dd, mo⟩ := d
    have hd7 : dy < 7 := hd
    interval_cases dy <;>
      simp [bucketKey, weekdayNames, displayChartData, getDefaultChartData]
  · intro d hm
    obtain ⟨t, hh, dy, dd, mo⟩ := d
    have hm12 : mo < 12 := hm
    interval_cases mo <;>
      simp [bucketKey, quarterNames, displayChartData, getDefaultChartData]

/-- Witness for C8 amended at a concrete timestamp: a Wednesday session
(getDay 3) has its bucket in the week template. -/
theorem displayChartData_empty_template_witness :
    bucketKey Period.week { time := 0, getHours := 0, getDay := 3,
                            getDate := 1, getMonth := 0 } ∈
      (displayChartData Period.week []).map Prod.fst :=
  displayChartData_empty_template.2.2.2.2.1
    { time := 0, getHours := 0, getDay := 3, getDate := 1, getMonth := 0 }
    (by decide)

/-! ### Owner scoping -/

theorem filter_and_eq {α : Type} (p q : α → Prop) [DecidablePred p]
    [DecidablePred q] (l1 l2 : List α)
    (h : l1.filter (fun x => decide (p x)) =
      l2.filter (fun x => decide (p x))) :
    l1.filter (fun x => decide (p x ∧ q x)) =
      l2.filter (fun x => decide (p x ∧ q x)) := by
  have key : ∀ l : List α, l.filter (fun x => decide (p x ∧ q x)) =
      (l.filter (fun x => decide (p x))).filter (fun x => decide (q x)) := by
    intro l
    rw [List.filter_filter]
    apply List.filter_congr
    intro x _
    rw [Bool.decide_and, Bool.and_comm]
  rw [key, key, h]

/-- C9: every aggregation function reads only the rows of the supplied
owner: two database states that agree on the rows whose user_id is userId
and differ arbitrarily elsewhere yield identical heatmap, streak, monthly
and chart results. -/
theorem aggregations_owner_scoped
    (hdb1 hdb2 : List HabitLog) (tdb1 tdb2 : List TaskRow)
    (fdb1 fdb2 : List FocusSession) (userId : String) (days : Nat)
    (today monthStart : Int) (daysElapsed : Nat) (period : Period)
    (startTime : Int)
    (hH : hdb1.filter (fun l => decide (l.user_id = userId)) =
      hdb2.filter (fun l => decide (l.user_id = userId)))
    (hT : tdb1.filter (fun t => decide (t.user_id = userId)) =
      tdb2.filter (fun t => decide (t.user_id = userId)))
    (hF : fdb1.filter (fun s => decide (s.user_id = userId)) =
      fdb2.filter (fun s => decide (s.user_id = userId))) :
    getHabitHeatmap hdb1 userId days today =
      getHabitHeatmap hdb2 userId days today ∧
    getStreakData hdb1 userId today = getStreakData hdb2 userId today ∧
    getMonthlyStats hdb1 tdb1 userId monthStart daysElapsed =
      getMonthlyStats hdb2 tdb2 userId monthStart daysElapsed ∧
    getFocusChartData fdb1 userId period startTime =
      getFocusChartData fdb2 userId period startTime := by
  refine ⟨?_, ?_, ?_, ?_⟩
  · have e := filter_and_eq (fun l : HabitLog => l.user_id = userId)
      (fun l => today - days ≤ l.completed_date) hdb1 hdb2 hH
    simp only [getHabitHeatmap]
    rw [e]
  · simp only [getStreakData]
    rw [hH]
  · have e := filter_and_eq (fun l : HabitLog => l.user_id = userId)
      (fun l => monthStart ≤ l.completed_date) hdb1 hdb2 hH
    simp only [getMonthlyStats]
    rw [e, hT]
  · have e := filter_and_eq (fun s : FocusSession => s.user_id = userId)
      (fun s => s.mode = Mode.work ∧ startTime ≤ s.completed_at.time)
      fdb1 fdb2 hF
    simp only [getFocusChartData]
    rw [e]

/-- Witness for C9 at concrete databases: removing a row of another owner v
does not change the streak of owner u. -/
theorem aggregations_owner_scoped_witness :
    getStreakData [{ user_id := "u", completed_date := 10 },
        { user_id := "v", completed_date := 3 }] "u" 10 =
      getStreakData [{ user_id := "u", completed_date := 10 }] "u" 10 :=
  (aggregations_owner_scoped
    [{ user_id := "u", completed_date := 10 },
      { user_id := "v", completed_date := 3 }]
    [{ user_id := "u", completed_date := 10 }]
    [] [] [] [] "u" 0 10 0 0 Period.day 0
    (by decide) (by decide) (by decide)).2.1

end HabitMaster
